import Mathlib

/-!
Shallow embedding of the `arber` Merkle-Mountain-Range core
(`src/utils.rs`, `src/store.rs`) together with proofs of the
specification claims.

Modelling conventions:

* Rust `u64` values are modelled as `Nat`.  All the arithmetic performed
  by the source never overflows 64 bits on inputs below `2 ^ 64` except in
  `is_left` / `family` (see the `checked` variants below, which model the
  overflow checks of a debug build explicitly via `Option`).
* `u64::leading_zeros` on a value below `2 ^ 64` is `64 - bit length`; the
  bit length is computed by `bitLenAux` with fuel 64, which is exact for
  every input below `2 ^ 64` (fuel 64 suffices there).
* Rust `x - y` on `u64` is modelled by truncated `Nat` subtraction; where a
  claim depends on Rust's underflow behaviour the checked variants are used.
* loops are modelled by recursion on the loop variable that the source
  decreases (`peak_idx >>= 1` halves, hence terminates).
-/

namespace Arber

/-- Fuel-limited binary length: `bitLenAux f n` is the number of binary
digits of `n`, computed with at most `f` halvings.  For `n < 2 ^ f` this is
the exact bit length. -/
def bitLenAux : Nat → Nat → Nat
  | 0, _ => 0
  | f + 1, n => if n = 0 then 0 else bitLenAux f (n / 2) + 1

/-- Model of `u64::leading_zeros` for inputs below `2 ^ 64`. -/
def u64LeadingZeros (n : Nat) : Nat := 64 - bitLenAux 64 n

/-- 64-bit all-ones constant `ALL_ONES` from `utils.rs`. -/
def ALL_ONES : Nat := 2 ^ 64 - 1

/-- The loop of `peaks` from `utils.rs`: iterates over `peak_idx`,
halving it each round; pushes `prev_peak_idx + peak_idx` whenever
`nodes_left >= peak_idx`.  Returns the accumulated peak list together with
the final `nodes_left`. -/
def peaksLoop (peakIdx nodesLeft prevPeakIdx : Nat) : List Nat × Nat :=
  if h : peakIdx = 0 then ([], nodesLeft)
  else if peakIdx ≤ nodesLeft then
    let r := peaksLoop (peakIdx >>> 1) (nodesLeft - peakIdx) (prevPeakIdx + peakIdx)
    ((prevPeakIdx + peakIdx) :: r.1, r.2)
  else
    peaksLoop (peakIdx >>> 1) nodesLeft prevPeakIdx
termination_by peakIdx
decreasing_by
  all_goals
    simp only [Nat.shiftRight_one]
    exact Nat.div_lt_self (Nat.pos_of_ne_zero h) one_lt_two

/-- `peaks(size)` from `utils.rs`: positions of all peaks of an MMR with
`size` nodes, empty for `size = 0` or an unstable size. -/
def peaks (size : Nat) : List Nat :=
  if size = 0 then []
  else
    let r := peaksLoop (ALL_ONES >>> u64LeadingZeros size) size 0
    if 0 < r.2 then [] else r.1

/-- Structural reformulation of `peaksLoop`: the loop visits exactly the
values `peak_idx = 2 ^ k - 1, 2 ^ (k-1) - 1, …, 1`, so it is recursion on
the exponent `k`. -/
def peaksK : Nat → Nat → Nat → List Nat × Nat
  | 0, nodesLeft, _ => ([], nodesLeft)
  | k + 1, nodesLeft, prevPeakIdx =>
    if 2 ^ (k + 1) - 1 ≤ nodesLeft then
      let r := peaksK k (nodesLeft - (2 ^ (k + 1) - 1)) (prevPeakIdx + (2 ^ (k + 1) - 1))
      ((prevPeakIdx + (2 ^ (k + 1) - 1)) :: r.1, r.2)
    else
      peaksK k nodesLeft prevPeakIdx

lemma two_pow_sub_one_shiftRight_one (k : Nat) :
    (2 ^ (k + 1) - 1) >>> 1 = 2 ^ k - 1 := by
  simp only [Nat.shiftRight_one]
  have h : 2 ^ (k + 1) = 2 * 2 ^ k := by ring
  omega

lemma peaksLoop_eq_peaksK (k nodesLeft prevPeakIdx : Nat) :
    peaksLoop (2 ^ k - 1) nodesLeft prevPeakIdx = peaksK k nodesLeft prevPeakIdx := by
  induction k generalizing nodesLeft prevPeakIdx with
  | zero => rw [peaksLoop]; rfl
  | succ k ih =>
    rw [peaksLoop]
    have hne : ¬(2 ^ (k + 1) - 1 = 0) := by
      have : 2 ≤ 2 ^ (k + 1) := Nat.one_lt_two_pow_iff.mpr (Nat.succ_ne_zero k)
      omega
    rw [dif_neg hne, two_pow_sub_one_shiftRight_one]
    by_cases hle : 2 ^ (k + 1) - 1 ≤ nodesLeft
    · simp only [if_pos hle, peaksK, ih]
    · simp only [if_neg hle, peaksK, ih]

lemma bitLenAux_le (f n : Nat) : bitLenAux f n ≤ f := by
  induction f generalizing n with
  | zero => simp [bitLenAux]
  | succ f ih =>
    simp only [bitLenAux]
    by_cases h : n = 0
    · simp [h]
    · simp only [if_neg h]
      exact Nat.succ_le_succ (ih (n / 2))

lemma all_ones_shiftRight (f : Nat) (hf : f ≤ 64) :
    ALL_ONES >>> (64 - f) = 2 ^ f - 1 := by
  have h1 : ALL_ONES = 2 ^ 64 - 1 := rfl
  rw [h1, Nat.shiftRight_eq_div_pow]
  have h2 : 2 ^ 64 = 2 ^ (64 - f) * 2 ^ f := by
    rw [← pow_add]
    congr 1
    omega
  have h3 : 0 < 2 ^ (64 - f) := Nat.pos_pow_of_pos _ (by norm_num)
  have h4 : 0 < 2 ^ f := Nat.pos_pow_of_pos _ (by norm_num)
  rw [h2]
  rcases Nat.eq_zero_or_pos (64 - f) with h5 | h5
  · simp [h5]
  · obtain ⟨b, hb⟩ : ∃ b, 2 ^ f = b + 1 := ⟨2 ^ f - 1, by omega⟩
    have hdist : 2 ^ (64 - f) * (b + 1) = 2 ^ (64 - f) * b + 2 ^ (64 - f) := by ring
    have : 2 ^ (64 - f) * 2 ^ f - 1 = 2 ^ (64 - f) * (2 ^ f - 1) + (2 ^ (64 - f) - 1) := by
      rw [hb]
      simp only [Nat.add_sub_cancel]
      omega
    rw [this, Nat.mul_add_div h3, Nat.div_eq_of_lt (by omega)]
    omega

/-- `peaks` computed through the structural loop: holds for every input
because the fuel-64 bit length is capped at 64. -/
lemma peaks_eq_peaksK (size : Nat) :
    peaks size =
      if size = 0 then []
      else
        if 0 < (peaksK (bitLenAux 64 size) size 0).2 then []
        else (peaksK (bitLenAux 64 size) size 0).1 := by
  unfold peaks u64LeadingZeros
  rw [all_ones_shiftRight _ (bitLenAux_le 64 size), peaksLoop_eq_peaksK]

/-- The loop of `node_height` from `utils.rs`. -/
def nodeHeightLoop (peakIdx idx : Nat) : Nat :=
  if h : peakIdx = 0 then idx
  else if peakIdx ≤ idx then
    nodeHeightLoop (peakIdx >>> 1) (idx - peakIdx)
  else
    nodeHeightLoop (peakIdx >>> 1) idx
termination_by peakIdx
decreasing_by
  all_goals
    simp only [Nat.shiftRight_one]
    exact Nat.div_lt_self (Nat.pos_of_ne_zero h) one_lt_two

/-- `node_height(pos)` from `utils.rs`; `pos.saturating_sub(1)` is `Nat`
subtraction. -/
def node_height (pos : Nat) : Nat :=
  let idx := pos - 1
  if idx = 0 then 0
  else nodeHeightLoop (ALL_ONES >>> u64LeadingZeros idx) idx

/-- `is_leaf(pos)` from `utils.rs`. -/
def is_leaf (pos : Nat) : Bool :=
  node_height pos == 0

/-- The loop of `peak_height_map` from `utils.rs`: shifts the map left each
round, setting the low bit when the rung `peak_idx` was subtracted. -/
def phmLoop (peakIdx idx peakMap : Nat) : Nat × Nat :=
  if h : peakIdx = 0 then (peakMap, idx)
  else if peakIdx ≤ idx then
    phmLoop (peakIdx >>> 1) (idx - peakIdx) ((peakMap <<< 1) ||| 1)
  else
    phmLoop (peakIdx >>> 1) idx (peakMap <<< 1)
termination_by peakIdx
decreasing_by
  all_goals
    simp only [Nat.shiftRight_one]
    exact Nat.div_lt_self (Nat.pos_of_ne_zero h) one_lt_two

/-- `peak_height_map(idx)` from `utils.rs`: returns `(peak_map, height)`. -/
def peak_height_map (idx : Nat) : Nat × Nat :=
  if idx = 0 then (0, 0)
  else phmLoop (ALL_ONES >>> u64LeadingZeros idx) idx 0

/-- `is_left(pos)` from `utils.rs`.  The source computes `pos - 1` with an
unchecked `u64` subtraction; `Nat` subtraction truncates instead, see
`is_left_checked` for the model of the overflow check. -/
def is_left (pos : Nat) : Bool :=
  let r := peak_height_map (pos - 1)
  let peak := 1 <<< r.2
  (r.1 &&& peak) == 0

/-- `family(pos)` from `utils.rs`: `(parent, sibling)` of the node at
`pos`.  Unchecked arithmetic as in the source; this `Nat` model agrees
with the `u64` source for every `1 ≤ pos ≤ 2 ^ 64 - 2`, while at `pos = 0`
the source underflows on `pos - 1` and at `pos = 2 ^ 64 - 1` it overflows
on `2 * peak` (`family_checked` models the debug-build panics there,
`family_wrapping` the release-build wrapping results). -/
def family (pos : Nat) : Nat × Nat :=
  let r := peak_height_map (pos - 1)
  let peak := 1 <<< r.2
  if r.1 &&& peak ≠ 0 then
    (pos + 1, pos + 1 - 2 * peak)
  else
    (pos + 2 * peak, pos + 2 * peak - 1)

/-- The loop of `family_path` from `utils.rs`.  The source variable
`parent_height` is always a power of two (it starts as `1 << node_height`
and is only ever doubled), so it is modelled by its exponent `e`
(`parent_height = 2 ^ e`), which also makes termination evident: `node_pos`
grows by at least 1 every round. -/
def fpLoop (peakMap e nodePos endPos : Nat) : List (Nat × Nat) :=
  if h : nodePos < endPos then
    if peakMap &&& 2 ^ e ≠ 0 then
      if endPos < nodePos + 1 then []
      else (nodePos + 1, nodePos + 1 - 2 * 2 ^ e) ::
        fpLoop peakMap (e + 1) (nodePos + 1) endPos
    else
      if endPos < nodePos + 2 * 2 ^ e then []
      else (nodePos + 2 * 2 ^ e, nodePos + 2 * 2 ^ e - 1) ::
        fpLoop peakMap (e + 1) (nodePos + 2 * 2 ^ e) endPos
  else []
termination_by endPos - nodePos
decreasing_by
  all_goals
    have hp : 0 < 2 ^ e := Nat.pos_pow_of_pos _ (by norm_num)
    omega

/-- `family_path(pos, end_pos)` from `utils.rs`. -/
def family_path (pos endPos : Nat) : List (Nat × Nat) :=
  let r := peak_height_map (pos - 1)
  fpLoop r.1 r.2 pos endPos

/-- The single error kind of the store (`Error::MissingHashAtIndex`). -/
inductive Error : Type where
  | MissingHashAtIndex (idx : Nat) : Error
deriving DecidableEq, Repr

/-- `VecStore<T>` from `store.rs`.  The hash type is opaque to the core
(`H` is a parameter); `data` is the optional payload sequence. -/
structure VecStore (T H : Type) : Type where
  data : Option (List T)
  hashes : List H

/-- `VecStore::new()` from `store.rs`. -/
def VecStore.new (T H : Type) : VecStore T H :=
  { data := some [], hashes := [] }

/-- `VecStore::append` from `store.rs`: pushes the payload when payloads
are retained, extends the hash sequence, and always returns `Ok`.
Mutation of `&mut self` is modelled by returning the new store. -/
def VecStore.append {T H : Type} (s : VecStore T H) (elem : T) (hs : List H) :
    Except Error (VecStore T H) :=
  match s.data with
  | some d => Except.ok { data := some (d ++ [elem]), hashes := s.hashes ++ hs }
  | none => Except.ok { data := none, hashes := s.hashes ++ hs }

/-- `VecStore::hash_at` from `store.rs`: direct lookup at index `idx`. -/
def VecStore.hash_at {T H : Type} (s : VecStore T H) (idx : Nat) : Except Error H :=
  match s.hashes.get? idx with
  | some h => Except.ok h
  | none => Except.error (Error.MissingHashAtIndex idx)

/-- `VecStore::peak_hash_at` from `store.rs`: identical lookup. -/
def VecStore.peak_hash_at {T H : Type} (s : VecStore T H) (idx : Nat) : Except Error H :=
  match s.hashes.get? idx with
  | some h => Except.ok h
  | none => Except.error (Error.MissingHashAtIndex idx)

/-- Checked `u64` subtraction: `none` models the debug-build underflow
panic of Rust `a - b`. -/
def checkedSub (a b : Nat) : Option Nat :=
  if b ≤ a then some (a - b) else none

/-- Checked `u64` addition: `none` models the debug-build overflow panic. -/
def checkedAdd64 (a b : Nat) : Option Nat :=
  if a + b < 2 ^ 64 then some (a + b) else none

/-- Checked `u64` multiplication: `none` models the debug-build overflow
panic. -/
def checkedMul64 (a b : Nat) : Option Nat :=
  if a * b < 2 ^ 64 then some (a * b) else none

/-- Checked `u64` left shift of 1: `none` models the panic on a shift
amount of 64 or more. -/
def checkedShl64 (e : Nat) : Option Nat :=
  if e < 64 then some (1 <<< e) else none

/-- `is_left` with the unchecked `pos - 1` of the source replaced by a
checked subtraction: evaluates to `none` exactly when a debug build of the
source panics. -/
def is_left_checked (pos : Nat) : Option Bool :=
  (checkedSub pos 1).bind fun idx =>
    let r := peak_height_map idx
    (checkedShl64 r.2).map fun peak => (r.1 &&& peak) == 0

/-- `family` with every `u64` operation of the source replaced by its
checked counterpart, in source order: evaluates to `none` exactly when a
debug build of the source panics. -/
def family_checked (pos : Nat) : Option (Nat × Nat) :=
  (checkedSub pos 1).bind fun idx =>
    let r := peak_height_map idx
    (checkedShl64 r.2).bind fun peak =>
      if r.1 &&& peak ≠ 0 then
        (checkedAdd64 pos 1).bind fun p1 =>
          (checkedMul64 2 peak).bind fun tp =>
            (checkedSub p1 tp).map fun sib => (p1, sib)
      else
        (checkedMul64 2 peak).bind fun tp =>
          (checkedAdd64 pos tp).bind fun par =>
            (checkedSub par 1).map fun sib => (par, sib)

/-- `family` under release-build `u64` semantics: every arithmetic
operation of the source is taken modulo `2 ^ 64` (Rust release mode wraps
instead of panicking; `a - b` wraps as `(a + 2 ^ 64 - b) % 2 ^ 64`). -/
def family_wrapping (pos : Nat) : Nat × Nat :=
  let r := peak_height_map ((pos + 2 ^ 64 - 1) % 2 ^ 64)
  let peak := (1 <<< r.2) % 2 ^ 64
  if r.1 &&& peak ≠ 0 then
    ((pos + 1) % 2 ^ 64,
      ((pos + 1) % 2 ^ 64 + 2 ^ 64 - (2 * peak) % 2 ^ 64) % 2 ^ 64)
  else
    ((pos + (2 * peak) % 2 ^ 64) % 2 ^ 64,
      ((pos + (2 * peak) % 2 ^ 64) % 2 ^ 64 + 2 ^ 64 - 1) % 2 ^ 64)

/-- A size is stable when it is a strictly decreasing sum of tree sizes
`2 ^ k - 1` (`k ≥ 1`).  This definition follows the wording of the
specification and is compared against the `peaks` algorithm. -/
def IsStableSum (size : Nat) : Prop :=
  ∃ ks : List Nat,
    ks ≠ [] ∧ List.Chain' (· > ·) ks ∧ (∀ k ∈ ks, 1 ≤ k) ∧
      (ks.map fun k => 2 ^ k - 1).sum = size

/-- Structural reformulation of `phmLoop` on the rung exponent: rung `k+1`
is `peak_idx = 2 ^ (k+1) - 1`, `peak_map <<= 1 / |= 1` is `2*m` or
`2*m + 1`. -/
def phmK : Nat → Nat → Nat → Nat × Nat
  | 0, idx, peakMap => (peakMap, idx)
  | k + 1, idx, peakMap =>
    if 2 ^ (k + 1) - 1 ≤ idx then
      phmK k (idx - (2 ^ (k + 1) - 1)) (2 * peakMap + 1)
    else
      phmK k idx (2 * peakMap)

lemma shiftLeft_one_or_one (m : Nat) : (m <<< 1) ||| 1 = 2 * m + 1 := by
  have h1 : m <<< 1 = Nat.bit false m := by
    rw [Nat.shiftLeft_eq, Nat.bit_val]
    simp [Nat.mul_comm]
  have h2 : (1 : Nat) = Nat.bit true 0 := by
    rw [Nat.bit_val]
    rfl
  rw [h1, h2, Nat.lor_bit, Nat.bit_val]
  simp

lemma phmLoop_eq_phmK (k idx peakMap : Nat) :
    phmLoop (2 ^ k - 1) idx peakMap = phmK k idx peakMap := by
  induction k generalizing idx peakMap with
  | zero => rw [phmLoop]; rfl
  | succ k ih =>
    rw [phmLoop]
    have hne : ¬(2 ^ (k + 1) - 1 = 0) := by
      have : 2 ≤ 2 ^ (k + 1) := Nat.one_lt_two_pow_iff.mpr (Nat.succ_ne_zero k)
      omega
    rw [dif_neg hne, two_pow_sub_one_shiftRight_one]
    by_cases hle : 2 ^ (k + 1) - 1 ≤ idx
    · simp only [if_pos hle, phmK, ih, shiftLeft_one_or_one]
    · simp only [if_neg hle, phmK, ih]
      rw [show (peakMap <<< 1) = 2 * peakMap by rw [Nat.shiftLeft_eq]; ring]

lemma phmK_zero_idx (k peakMap : Nat) : phmK k 0 peakMap = (peakMap * 2 ^ k, 0) := by
  induction k generalizing peakMap with
  | zero => simp [phmK]
  | succ k ih =>
    have h : ¬(2 ^ (k + 1) - 1 ≤ 0) := by
      have : 2 ≤ 2 ^ (k + 1) := Nat.one_lt_two_pow_iff.mpr (Nat.succ_ne_zero k)
      omega
    simp only [phmK, if_neg h, ih]
    rw [pow_succ]
    ring_nf

/-- `peak_height_map` computed through the structural loop; holds for
every input because the fuel-64 bit length is capped at 64. -/
lemma phm_eq_phmK (idx : Nat) :
    peak_height_map idx = phmK (bitLenAux 64 idx) idx 0 := by
  unfold peak_height_map u64LeadingZeros
  by_cases h : idx = 0
  · subst h
    rw [if_pos rfl, phmK_zero_idx]
    simp
  · rw [if_neg h, all_ones_shiftRight _ (bitLenAux_le 64 idx), phmLoop_eq_phmK]

lemma bitLenAux_lt (f n : Nat) (h : n < 2 ^ f) : n < 2 ^ bitLenAux f n := by
  induction f generalizing n with
  | zero =>
    simpa [bitLenAux] using h
  | succ f ih =>
    simp only [bitLenAux]
    by_cases h0 : n = 0
    · simp [h0]
    · rw [if_neg h0]
      have hd : n / 2 < 2 ^ f := by
        have h2 : 2 ^ (f + 1) = 2 * 2 ^ f := by ring
        omega
      have := ih (n / 2) hd
      have h3 : 2 ^ (bitLenAux f (n / 2) + 1) = 2 * 2 ^ bitLenAux f (n / 2) := by ring
      omega

lemma bitLenAux_pos (f n : Nat) (hn : n ≠ 0) (hf : f ≠ 0) : 0 < bitLenAux f n := by
  obtain ⟨f', rfl⟩ : ∃ f', f = f' + 1 := ⟨f - 1, by omega⟩
  simp [bitLenAux, hn]

lemma bitLenAux_ge (f n : Nat) (hn : n ≠ 0) : 2 ^ (bitLenAux f n - 1) ≤ n := by
  induction f generalizing n with
  | zero =>
    simp only [bitLenAux]
    omega
  | succ f ih =>
    simp only [bitLenAux, if_neg hn]
    by_cases h0 : n / 2 = 0
    · have : bitLenAux f (n / 2) = 0 := by
        cases f <;> simp [bitLenAux, h0]
      simp only [this]
      omega
    · have := ih (n / 2) h0
      have hpos := bitLenAux_pos f (n / 2) h0
      by_cases hf : f = 0
      · subst hf
        simp only [bitLenAux] at *
        omega
      · have h1 : 0 < bitLenAux f (n / 2) := bitLenAux_pos f (n / 2) h0 hf
        have h2 : bitLenAux f (n / 2) + 1 - 1 = (bitLenAux f (n / 2) - 1) + 1 := by omega
        rw [h2, pow_succ]
        omega

lemma bitLenAux_of_ge (f : Nat) : ∀ n, 2 ^ f ≤ n → bitLenAux (f + 1) n = f + 1 := by
  induction f with
  | zero =>
    intro n hn
    have hn0 : n ≠ 0 := by omega
    simp [bitLenAux, hn0]
  | succ f ih =>
    intro n hn
    have hn0 : n ≠ 0 := by
      have : 0 < 2 ^ (f + 1) := Nat.pos_pow_of_pos _ (by norm_num)
      omega
    rw [bitLenAux, if_neg hn0]
    rw [ih (n / 2) (by
      have h2 : 2 ^ (f + 1) = 2 * 2 ^ f := by ring
      omega)]

/-- Counterexample input for the store claims: payload list empty, two
hashes 10 and 20 stored at 0-based indices 0 and 1. -/
def storeTwo : VecStore Nat Nat :=
  { data := some [], hashes := [10, 20] }

/-- C1 counterexample: the claim says `hash_at(pos)` returns the hash at
0-based index `pos - 1`; at `pos = 1` (within the stored range of
`storeTwo`) the hash at index `1 - 1 = 0` is `10`, but the code returns the
hash stored at index `1`, namely `20`. -/
theorem c1_counterexample :
    storeTwo.hashes.get? (1 - 1) = some 10 ∧
      storeTwo.hash_at 1 ≠ Except.ok 10 ∧
      storeTwo.hash_at 1 = Except.ok 20 ∧
      storeTwo.peak_hash_at 1 = Except.ok 20 := by
  refine ⟨rfl, ?_, rfl, rfl⟩
  intro h
  simp [VecStore.hash_at, storeTwo, List.get?] at h

/-- C1, amended: `hash_at(idx)` and `peak_hash_at(idx)` are direct 0-based
lookups at index `idx` itself: they return the stored hash when
`idx` is below the number of stored hashes and fail with the
missing-hash-at-index error (carrying `idx`) otherwise. -/
theorem c1_hash_at_amended {T H : Type} (s : VecStore T H) (idx : Nat) :
    (∀ (h : idx < s.hashes.length),
        s.hash_at idx = Except.ok (s.hashes.get ⟨idx, h⟩) ∧
          s.peak_hash_at idx = Except.ok (s.hashes.get ⟨idx, h⟩)) ∧
      (s.hashes.length ≤ idx →
        s.hash_at idx = Except.error (Error.MissingHashAtIndex idx) ∧
          s.peak_hash_at idx = Except.error (Error.MissingHashAtIndex idx)) := by
  constructor
  · intro h
    have hg : s.hashes.get? idx = some (s.hashes.get ⟨idx, h⟩) := List.get?_eq_get h
    unfold VecStore.hash_at VecStore.peak_hash_at
    rw [hg]
    exact ⟨rfl, rfl⟩
  · intro h
    have hg : s.hashes.get? idx = none := List.get?_eq_none.mpr h
    unfold VecStore.hash_at VecStore.peak_hash_at
    rw [hg]
    exact ⟨rfl, rfl⟩

/-- Witness for the amended C1 theorem at the concrete store `storeTwo`:
index 1 is in range and yields the hash stored at index 1, index 5 is out
of range and yields the error carrying the index 5. -/
theorem c1_hash_at_amended_witness :
    storeTwo.hash_at 1 = Except.ok 20 ∧
      storeTwo.hash_at 5 = Except.error (Error.MissingHashAtIndex 5) := by
  constructor
  · have h := (c1_hash_at_amended storeTwo 1).1 (by simp [storeTwo])
    simpa [storeTwo] using h.1
  · have h := (c1_hash_at_amended storeTwo 5).2 (by simp [storeTwo])
    exact h.1

/-- C9: on the empty store produced by `VecStore::new`, `hash_at` and
`peak_hash_at` return the missing-hash-at-index error carrying the
requested index, for every index; they never produce a default hash. -/
theorem c9_empty_store_error (T H : Type) (idx : Nat) :
    (VecStore.new T H).hash_at idx = Except.error (Error.MissingHashAtIndex idx) ∧
      (VecStore.new T H).peak_hash_at idx = Except.error (Error.MissingHashAtIndex idx) := by
  constructor <;> simp [VecStore.new, VecStore.hash_at, VecStore.peak_hash_at]

/-- C10: `append` always succeeds; the new hash sequence is exactly the
old one followed by the supplied hashes in order (so every previously
stored hash is unchanged, at its old index), and the payload is pushed
exactly when payloads are retained (`data` is `some`). -/
theorem c10_append_frame {T H : Type} (s : VecStore T H) (elem : T) (hs : List H) :
    s.append elem hs =
        Except.ok
          { data := s.data.map fun d => d ++ [elem], hashes := s.hashes ++ hs } ∧
      (s.hashes ++ hs).take s.hashes.length = s.hashes ∧
      (∀ i, i < s.hashes.length → (s.hashes ++ hs).get? i = s.hashes.get? i) := by
  refine ⟨?_, ?_, ?_⟩
  · cases hd : s.data <;> simp [VecStore.append, hd]
  · simpa using List.take_left s.hashes hs
  · intro i hi
    exact List.get?_append hi

/-- Sanity: `peak_height_map` reproduces the values asserted by the Rust
unit test `peak_height_map_works`, including both `u64` edge cases. -/
lemma phm_test_values :
    peak_height_map 0 = (0, 0) ∧ peak_height_map 1 = (1, 0) ∧
      peak_height_map 2 = (1, 1) ∧ peak_height_map 3 = (2, 0) ∧
      peak_height_map 4 = (3, 0) ∧ peak_height_map 5 = (3, 1) ∧
      peak_height_map 6 = (3, 2) ∧ peak_height_map 7 = (4, 0) ∧
      peak_height_map 18 = (10, 0) ∧
      peak_height_map (2 ^ 64 - 1) = (2 ^ 63, 0) ∧
      peak_height_map (2 ^ 64 - 2) = (2 ^ 63 - 1, 63) := by
  simp only [phm_eq_phmK]
  decide

/-- C5: the literal `peaks` scenarios of the specification (and of the
Rust unit test `peaks_works`). -/
theorem c5_peaks_values :
    peaks 0 = [] ∧ peaks 1 = [1] ∧ peaks 2 = [] ∧ peaks 3 = [3] ∧
      peaks 4 = [3, 4] ∧ peaks 7 = [7] ∧ peaks 8 = [7, 8] ∧
      peaks 10 = [7, 10] ∧ peaks 11 = [7, 10, 11] ∧
      peaks 19 = [15, 18, 19] := by
  simp only [peaks_eq_peaksK]
  decide

/-- C2: the boundary claims fail on the code.  `is_left(0)` and
`family(0)` compute the unchecked `u64` subtraction `pos - 1 = 0 - 1`,
which underflows, and `family(u64::MAX)` reaches `2 * peak` with
`peak = 1 << 63`, which overflows 64 bits; a debug build of the source
panics at these inputs (`none` in the checked model) instead of returning
a well-defined result. -/
theorem c2_boundary_overflows :
    is_left_checked 0 = none ∧ family_checked 0 = none ∧
      family_checked (2 ^ 64 - 1) = none := by
  refine ⟨rfl, rfl, ?_⟩
  unfold family_checked
  rw [show checkedSub (2 ^ 64 - 1) 1 = some (2 ^ 64 - 2) by decide]
  rw [Option.some_bind]
  rw [phm_test_values.2.2.2.2.2.2.2.2.2.2]
  decide

/-- C3 counterexample: the claim says `family_path(pos, end_pos)` is empty
whenever `pos = 0`, but at `pos = 0`, `end_pos = 5` the code saturates
`pos - 1` to `0`, walks from `node_pos = 0` as if it were a left node and
returns the non-empty path `[(2, 1)]`. -/
theorem c3_counterexample :
    family_path 0 5 = [(2, 1)] ∧ family_path 0 5 ≠ [] := by
  have h : family_path 0 5 = [(2, 1)] := by
    show fpLoop 0 0 0 5 = [(2, 1)]
    rw [fpLoop.eq_def]
    norm_num
    rw [fpLoop.eq_def]
    norm_num
  exact ⟨h, by rw [h]; simp⟩

/-- C3, amended: `family_path(pos, end_pos)` returns the empty sequence
whenever `pos ≥ end_pos` (in particular at `pos = end_pos = 0`); `pos = 0`
alone does not force an empty path when `end_pos > 0`. -/
theorem c3_family_path_empty (pos endPos : Nat) (h : endPos ≤ pos) :
    family_path pos endPos = [] := by
  unfold family_path
  rw [fpLoop.eq_def, dif_neg (by omega)]

/-- Witness for the amended C3 theorem at the degenerate input of the Rust
unit test `family_path_invalid_args`. -/
theorem c3_family_path_empty_witness :
    2 ≤ 12 ∧ family_path 12 2 = [] :=
  ⟨by decide, c3_family_path_empty 12 2 (by decide)⟩

lemma fpLoop_mem (fuel : Nat) :
    ∀ peakMap e nodePos endPos, endPos - nodePos ≤ fuel →
      ∀ pr ∈ fpLoop peakMap e nodePos endPos, nodePos < pr.1 ∧ pr.1 ≤ endPos := by
  induction fuel with
  | zero =>
    intro peakMap e nodePos endPos hf pr hpr
    rw [fpLoop.eq_def, dif_neg (by omega)] at hpr
    simp at hpr
  | succ fuel ih =>
    intro peakMap e nodePos endPos hf pr hpr
    rw [fpLoop.eq_def] at hpr
    by_cases hlt : nodePos < endPos
    · rw [dif_pos hlt] at hpr
      have hp : 0 < 2 ^ e := Nat.pos_pow_of_pos _ (by norm_num)
      by_cases hbit : peakMap &&& 2 ^ e ≠ 0
      · rw [if_pos hbit] at hpr
        by_cases hbr : endPos < nodePos + 1
        · rw [if_pos hbr] at hpr
          simp at hpr
        · rw [if_neg hbr] at hpr
          rcases List.mem_cons.mp hpr with hh | ht
          · subst hh
            constructor <;> omega
          · have := ih peakMap (e + 1) (nodePos + 1) endPos (by omega) pr ht
            constructor <;> omega
      · rw [if_neg hbit] at hpr
        by_cases hbr : endPos < nodePos + 2 * 2 ^ e
        · rw [if_pos hbr] at hpr
          simp at hpr
        · rw [if_neg hbr] at hpr
          rcases List.mem_cons.mp hpr with hh | ht
          · subst hh
            constructor <;> omega
          · have := ih peakMap (e + 1) (nodePos + 2 * 2 ^ e) endPos (by omega) pr ht
            constructor <;> omega
    · rw [dif_neg hlt] at hpr
      simp at hpr

lemma fpLoop_chain (fuel : Nat) :
    ∀ peakMap e nodePos endPos, endPos - nodePos ≤ fuel →
      List.Chain' (fun a b : Nat × Nat => a.1 < b.1)
        (fpLoop peakMap e nodePos endPos) := by
  induction fuel with
  | zero =>
    intro peakMap e nodePos endPos hf
    rw [fpLoop.eq_def, dif_neg (by omega)]
    exact List.chain'_nil
  | succ fuel ih =>
    intro peakMap e nodePos endPos hf
    rw [fpLoop.eq_def]
    by_cases hlt : nodePos < endPos
    · rw [dif_pos hlt]
      have hp : 0 < 2 ^ e := Nat.pos_pow_of_pos _ (by norm_num)
      by_cases hbit : peakMap &&& 2 ^ e ≠ 0
      · rw [if_pos hbit]
        by_cases hbr : endPos < nodePos + 1
        · simp [hbr]
        · rw [if_neg hbr]
          rw [List.chain'_cons']
          refine ⟨?_, ih peakMap (e + 1) (nodePos + 1) endPos (by omega)⟩
          intro b hb
          have hmem : b ∈ fpLoop peakMap (e + 1) (nodePos + 1) endPos :=
            List.mem_of_mem_head? hb
          have := fpLoop_mem fuel peakMap (e + 1) (nodePos + 1) endPos (by omega) b hmem
          exact this.1
      · rw [if_neg hbit]
        by_cases hbr : endPos < nodePos + 2 * 2 ^ e
        · simp [hbr]
        · rw [if_neg hbr]
          rw [List.chain'_cons']
          refine ⟨?_, ih peakMap (e + 1) (nodePos + 2 * 2 ^ e) endPos (by omega)⟩
          intro b hb
          have hmem : b ∈ fpLoop peakMap (e + 1) (nodePos + 2 * 2 ^ e) endPos :=
            List.mem_of_mem_head? hb
          have := fpLoop_mem fuel peakMap (e + 1) (nodePos + 2 * 2 ^ e) endPos (by omega) b hmem
          exact this.1
    · rw [dif_neg hlt]
      exact List.chain'_nil

/-- C8: for `0 < pos < end_pos`, the parents in `family_path(pos, end_pos)`
strictly increase along the path, and no appended pair's parent exceeds
`end_pos` (so in particular the last parent is at most `end_pos`). -/
theorem c8_family_path_parents (pos endPos : Nat) (hpos : 0 < pos)
    (hlt : pos < endPos) :
    List.Chain' (fun a b : Nat × Nat => a.1 < b.1) (family_path pos endPos) ∧
      ∀ pr ∈ family_path pos endPos, pr.1 ≤ endPos := by
  unfold family_path
  constructor
  · exact fpLoop_chain (endPos - pos) _ _ pos endPos (le_refl _)
  · intro pr hpr
    exact (fpLoop_mem (endPos - pos) _ _ pos endPos (le_refl _) pr hpr).2

/-- Witness for C8 at the first Rust unit-test input `family_path(1, 3)`. -/
theorem c8_family_path_parents_witness :
    (0 < 1 ∧ 1 < 3) ∧
      (List.Chain' (fun a b : Nat × Nat => a.1 < b.1) (family_path 1 3) ∧
        ∀ pr ∈ family_path 1 3, pr.1 ≤ 3) :=
  ⟨⟨by decide, by decide⟩, c8_family_path_parents 1 3 (by decide) (by decide)⟩

lemma peaks_of_ne_zero (size : Nat) (h : size ≠ 0) :
    peaks size =
      if 0 < (peaksLoop (ALL_ONES >>> u64LeadingZeros size) size 0).2 then []
      else (peaksLoop (ALL_ONES >>> u64LeadingZeros size) size 0).1 := by
  unfold peaks
  rw [if_neg h]

/-- Loop invariant of `peaksLoop`: the final `nodes_left` never grows, the
pushed peaks strictly increase starting above `prev_peak_idx`, and the last
pushed peak is `prev_peak_idx` plus the number of nodes consumed. -/
lemma peaksLoop_spec (peakIdx : Nat) :
    ∀ nodesLeft prevPeakIdx,
      (peaksLoop peakIdx nodesLeft prevPeakIdx).2 ≤ nodesLeft ∧
        ((peaksLoop peakIdx nodesLeft prevPeakIdx).1 = [] →
          (peaksLoop peakIdx nodesLeft prevPeakIdx).2 = nodesLeft) ∧
        (∀ x ∈ (peaksLoop peakIdx nodesLeft prevPeakIdx).1, prevPeakIdx < x) ∧
        List.Chain' (· < ·) (peaksLoop peakIdx nodesLeft prevPeakIdx).1 ∧
        ((peaksLoop peakIdx nodesLeft prevPeakIdx).1 ≠ [] →
          (peaksLoop peakIdx nodesLeft prevPeakIdx).1.getLast? =
            some (prevPeakIdx + (nodesLeft - (peaksLoop peakIdx nodesLeft prevPeakIdx).2))) := by
  induction peakIdx using Nat.strong_induction_on with
  | _ p ih =>
    intro nodesLeft prevPeakIdx
    rw [peaksLoop.eq_def]
    by_cases hp : p = 0
    · rw [dif_pos hp]
      refine ⟨le_refl _, fun _ => rfl, by simp, List.chain'_nil, by simp⟩
    · rw [dif_neg hp]
      have hhalf : p >>> 1 < p := by
        simp only [Nat.shiftRight_one]
        exact Nat.div_lt_self (Nat.pos_of_ne_zero hp) one_lt_two
      by_cases hle : p ≤ nodesLeft
      · rw [if_pos hle]
        obtain ⟨h1, h2, h3, h4, h5⟩ := ih (p >>> 1) hhalf (nodesLeft - p) (prevPeakIdx + p)
        simp only
        refine ⟨by omega, by simp, ?_, ?_, ?_⟩
        · intro x hx
          rcases List.mem_cons.mp hx with hh | ht
          · omega
          · have := h3 x ht
            omega
        · rw [List.chain'_cons']
          refine ⟨?_, h4⟩
          intro b hb
          exact h3 b (List.mem_of_mem_head? hb)
        · intro _
          rcases hrec : (peaksLoop (p >>> 1) (nodesLeft - p) (prevPeakIdx + p)).1 with _ | ⟨y, ys⟩
          · have h6 := h2 hrec
            rw [h6]
            simp only [List.getLast?_singleton]
            congr 1
            omega
          · rw [List.getLast?_cons_cons, ← hrec]
            rw [h5 (by rw [hrec]; simp)]
            congr 1
            omega
      · rw [if_neg hle]
        exact ih (p >>> 1) hhalf nodesLeft prevPeakIdx

/-- C6: `peaks(size)` is strictly increasing (hence non-decreasing), and
when non-empty its last element is `size`. -/
theorem c6_peaks_sorted_last (size : Nat) :
    List.Chain' (· < ·) (peaks size) ∧
      (peaks size = [] ∨ (peaks size).getLast? = some size) := by
  by_cases h0 : size = 0
  · subst h0
    simp [peaks]
  · rw [peaks_of_ne_zero size h0]
    obtain ⟨h1, h2, h3, h4, h5⟩ :=
      peaksLoop_spec (ALL_ONES >>> u64LeadingZeros size) size 0
    by_cases hr : 0 < (peaksLoop (ALL_ONES >>> u64LeadingZeros size) size 0).2
    · simp [hr]
    · rw [if_neg hr]
      refine ⟨h4, ?_⟩
      by_cases hne : (peaksLoop (ALL_ONES >>> u64LeadingZeros size) size 0).1 = []
      · exact Or.inl hne
      · refine Or.inr ?_
        rw [h5 hne]
        congr 1
        omega

/-- A strictly decreasing list of exponents in `[1, k]` has its tree sizes
sum below `2 ^ (k + 1) - 1`. -/
lemma stable_sum_lt (ks : List Nat) :
    ∀ k, List.Pairwise (· > ·) ks → (∀ j ∈ ks, 1 ≤ j ∧ j ≤ k) →
      (ks.map fun j => 2 ^ j - 1).sum < 2 ^ (k + 1) - 1 := by
  induction ks with
  | nil =>
    intro k _ _
    have : 2 ≤ 2 ^ (k + 1) := Nat.one_lt_two_pow_iff.mpr (Nat.succ_ne_zero k)
    simp only [List.map_nil, List.sum_nil]
    omega
  | cons a t ih =>
    intro k hpw hb
    have hpt := List.pairwise_cons.mp hpw
    have ha := hb a (List.mem_cons_self a t)
    have hts : (t.map fun j => 2 ^ j - 1).sum < 2 ^ (a - 1 + 1) - 1 := by
      refine ih (a - 1) hpt.2 ?_
      intro j hj
      have := hpt.1 j hj
      have := hb j (List.mem_cons_of_mem a hj)
      omega
    have ha1 : a - 1 + 1 = a := by omega
    rw [ha1] at hts
    have hmono : 2 ^ (a + 1) ≤ 2 ^ (k + 1) :=
      Nat.pow_le_pow_right (by norm_num) (by omega)
    have hpa : 2 ^ (a + 1) = 2 * 2 ^ a := by ring
    simp only [List.map_cons, List.sum_cons]
    omega

/-- Completeness of the greedy loop: started at any rung level bounding
all exponents of a strictly decreasing decomposition, it consumes the sum
exactly and pushes one peak per term. -/
lemma peaksK_consume :
    ∀ k (ks : List Nat), List.Pairwise (· > ·) ks →
      (∀ j ∈ ks, 1 ≤ j ∧ j ≤ k) → ∀ pp,
        (peaksK k ((ks.map fun j => 2 ^ j - 1).sum) pp).2 = 0 ∧
          ((peaksK k ((ks.map fun j => 2 ^ j - 1).sum) pp).1 = [] ↔ ks = []) := by
  intro k
  induction k with
  | zero =>
    intro ks hpw hb pp
    match ks, hb with
    | [], _ => simp [peaksK]
    | a :: t, hb =>
      have := hb a (List.mem_cons_self a t)
      omega
  | succ k ih =>
    intro ks hpw hb pp
    match ks, hpw, hb with
    | [], _, _ =>
      have hR : ¬(2 ^ (k + 1) - 1 ≤ ([].map fun j => 2 ^ j - 1).sum) := by
        have : 2 ≤ 2 ^ (k + 1) := Nat.one_lt_two_pow_iff.mpr (Nat.succ_ne_zero k)
        simp only [List.map_nil, List.sum_nil]
        omega
      simp only [peaksK, if_neg hR]
      simpa using ih [] (List.Pairwise.nil) (by simp) pp
    | a :: t, hpw, hb =>
      have hpt := List.pairwise_cons.mp hpw
      have ha := hb a (List.mem_cons_self a t)
      have htb : ∀ j ∈ t, 1 ≤ j ∧ j ≤ a - 1 := by
        intro j hj
        have := hpt.1 j hj
        have := hb j (List.mem_cons_of_mem a hj)
        omega
      by_cases hak : a = k + 1
      · have hsum : ((a :: t).map fun j => 2 ^ j - 1).sum =
            (2 ^ (k + 1) - 1) + (t.map fun j => 2 ^ j - 1).sum := by
          simp [hak]
        have hR : 2 ^ (k + 1) - 1 ≤ ((a :: t).map fun j => 2 ^ j - 1).sum := by
          rw [hsum]
          omega
        have harg : ((a :: t).map fun j => 2 ^ j - 1).sum - (2 ^ (k + 1) - 1) =
            (t.map fun j => 2 ^ j - 1).sum := by
          rw [hsum]
          omega
        simp only [peaksK, if_pos hR, harg]
        have hrec := ih t hpt.2 (by
          intro j hj
          have := htb j hj
          omega) (pp + (2 ^ (k + 1) - 1))
        refine ⟨hrec.1, ?_⟩
        simp
      · have hbk : ∀ j ∈ a :: t, 1 ≤ j ∧ j ≤ k := by
          intro j hj
          rcases List.mem_cons.mp hj with rfl | hjt
          · omega
          · have := htb j hjt
            omega
        have hlt : ((a :: t).map fun j => 2 ^ j - 1).sum < 2 ^ (k + 1) - 1 :=
          stable_sum_lt (a :: t) k hpw hbk
        have hR : ¬(2 ^ (k + 1) - 1 ≤ ((a :: t).map fun j => 2 ^ j - 1).sum) := by
          omega
        simp only [peaksK, if_neg hR]
        exact ih (a :: t) hpw hbk pp

/-- Soundness of the greedy loop: whatever it returns is a strictly
decreasing decomposition of the consumed nodes. -/
lemma peaksK_decompose :
    ∀ k nl pp, ∃ ks : List Nat,
      List.Pairwise (· > ·) ks ∧ (∀ j ∈ ks, 1 ≤ j ∧ j ≤ k) ∧
        (ks.map fun j => 2 ^ j - 1).sum + (peaksK k nl pp).2 = nl ∧
        (ks = [] ↔ (peaksK k nl pp).1 = []) := by
  intro k
  induction k with
  | zero =>
    intro nl pp
    exact ⟨[], List.Pairwise.nil, by simp, by simp [peaksK], by simp [peaksK]⟩
  | succ k ih =>
    intro nl pp
    by_cases hR : 2 ^ (k + 1) - 1 ≤ nl
    · obtain ⟨ks, h1, h2, h3, h4⟩ := ih (nl - (2 ^ (k + 1) - 1)) (pp + (2 ^ (k + 1) - 1))
      refine ⟨(k + 1) :: ks, ?_, ?_, ?_, ?_⟩
      · rw [List.pairwise_cons]
        refine ⟨?_, h1⟩
        intro j hj
        have := h2 j hj
        omega
      · intro j hj
        rcases List.mem_cons.mp hj with rfl | hjt
        · omega
        · have := h2 j hjt
          omega
      · simp only [peaksK, if_pos hR, List.map_cons, List.sum_cons]
        omega
      · simp only [peaksK, if_pos hR]
        simp
    · obtain ⟨ks, h1, h2, h3, h4⟩ := ih nl pp
      refine ⟨ks, h1, ?_, ?_, ?_⟩
      · intro j hj
        have := h2 j hj
        omega
      · simpa only [peaksK, if_neg hR] using h3
      · simpa only [peaksK, if_neg hR] using h4

/-- C4: `peaks(size)` is non-empty exactly when `size` is a strictly
decreasing sum of tree sizes `2 ^ k - 1`; every other size below `2 ^ 64`
(including 0, whose only candidate sum is empty) yields the empty list. -/
theorem c4_peaks_nonempty_iff_stable (size : Nat) (hsize : size < 2 ^ 64) :
    peaks size ≠ [] ↔ IsStableSum size := by
  rw [peaks_eq_peaksK]
  constructor
  · intro hne
    by_cases hsz : size = 0
    · simp [hsz] at hne
    · rw [if_neg hsz] at hne
      by_cases hr2 : 0 < (peaksK (bitLenAux 64 size) size 0).2
      · simp [hr2] at hne
      · rw [if_neg hr2] at hne
        obtain ⟨ks, h1, h2, h3, h4⟩ := peaksK_decompose (bitLenAux 64 size) size 0
        refine ⟨ks, ?_, ?_, ?_, ?_⟩
        · intro hks
          exact hne (h4.mp hks)
        · exact List.chain'_iff_pairwise.mpr h1
        · intro j hj
          exact (h2 j hj).1
        · omega
  · rintro ⟨ks, hne, hchain, hone, hsum⟩
    have hpw : List.Pairwise (· > ·) ks := List.chain'_iff_pairwise.mp hchain
    match ks, hne, hpw, hone, hsum with
    | a :: t, _, hpw, hone, hsum =>
      have hpt := List.pairwise_cons.mp hpw
      have ha1 : 1 ≤ a := (hone a (List.mem_cons_self a t))
      have htb : ∀ j ∈ t, 1 ≤ j ∧ j ≤ a - 1 := by
        intro j hj
        have := hpt.1 j hj
        have := hone j (List.mem_cons_of_mem a hj)
        omega
      have hts : (t.map fun j => 2 ^ j - 1).sum < 2 ^ (a - 1 + 1) - 1 :=
        stable_sum_lt t (a - 1) hpt.2 htb
      rw [show a - 1 + 1 = a by omega] at hts
      have hsz : ((a :: t).map fun j => 2 ^ j - 1).sum =
          (2 ^ a - 1) + (t.map fun j => 2 ^ j - 1).sum := by simp
      have hlb : 2 ^ a - 1 ≤ size := by omega
      have hpa : 2 ≤ 2 ^ a := by
        calc 2 = 2 ^ 1 := by norm_num
        _ ≤ 2 ^ a := Nat.pow_le_pow_right (by norm_num) ha1
      have hs0 : size ≠ 0 := by omega
      have hK : a ≤ bitLenAux 64 size := by
        have hKlt : size < 2 ^ bitLenAux 64 size := bitLenAux_lt 64 size hsize
        have h2a : 2 ^ a ≤ 2 ^ bitLenAux 64 size := by omega
        by_contra hcon
        push_neg at hcon
        have := Nat.pow_lt_pow_right (by norm_num : 1 < 2) hcon
        omega
      have hball : ∀ j ∈ a :: t, 1 ≤ j ∧ j ≤ bitLenAux 64 size := by
        intro j hj
        rcases List.mem_cons.mp hj with rfl | hjt
        · omega
        · have := htb j hjt
          omega
      have hc := peaksK_consume (bitLenAux 64 size) (a :: t) hpw hball 0
      rw [hsum] at hc
      have h20 := hc.1
      rw [if_neg hs0, if_neg (by omega)]
      intro habs
      simpa using hc.2.mp habs

/-- Witness for C4 at `size = 3 = 2 ^ 2 - 1`. -/
theorem c4_peaks_nonempty_iff_stable_witness :
    3 < 2 ^ 64 ∧ (peaks 3 ≠ [] ↔ IsStableSum 3) :=
  ⟨by norm_num, c4_peaks_nonempty_iff_stable 3 (by norm_num)⟩

/-- The `peak_map` accumulator of `phmK` only contributes high bits: the
result map decomposes as run-from-zero plus `map * 2 ^ k`, the height is
independent of the accumulator. -/
lemma phmK_acc (k : Nat) :
    ∀ idx peakMap,
      phmK k idx peakMap =
        ((phmK k idx 0).1 + peakMap * 2 ^ k, (phmK k idx 0).2) := by
  induction k with
  | zero =>
    intro idx peakMap
    simp [phmK]
  | succ k ih =>
    intro idx peakMap
    by_cases hR : 2 ^ (k + 1) - 1 ≤ idx
    · simp only [phmK, if_pos hR]
      rw [ih (idx - (2 ^ (k + 1) - 1)) (2 * peakMap + 1),
        ih (idx - (2 ^ (k + 1) - 1)) (2 * 0 + 1)]
      have h2 : (2 * peakMap + 1) * 2 ^ k =
          (2 * 0 + 1) * 2 ^ k + peakMap * 2 ^ (k + 1) := by ring
      simp only [Prod.mk.injEq]
      exact ⟨by omega, trivial⟩
    · simp only [phmK, if_neg hR]
      rw [ih idx (2 * peakMap), ih idx (2 * 0)]
      have h2 : 2 * peakMap * 2 ^ k = 2 * 0 * 2 ^ k + peakMap * 2 ^ (k + 1) := by ring
      simp only [Prod.mk.injEq]
      exact ⟨by omega, trivial⟩

/-- Started from accumulator 0, the map of `phmK k` uses only `k` bits. -/
lemma phmK_map_lt (k : Nat) : ∀ idx, (phmK k idx 0).1 < 2 ^ k := by
  induction k with
  | zero =>
    intro idx
    simp [phmK]
  | succ k ih =>
    intro idx
    by_cases hR : 2 ^ (k + 1) - 1 ≤ idx
    · simp only [phmK, if_pos hR]
      rw [phmK_acc k (idx - (2 ^ (k + 1) - 1)) (2 * 0 + 1)]
      have := ih (idx - (2 ^ (k + 1) - 1))
      have h2 : 2 ^ (k + 1) = 2 * 2 ^ k := by ring
      simp only
      omega
    · simp only [phmK, if_neg hR]
      rw [phmK_acc k idx (2 * 0)]
      have := ih idx
      have h2 : 2 ^ (k + 1) = 2 * 2 ^ k := by ring
      simp only
      omega

lemma testBit_mul_pow_add_low (a b k j : Nat) (hj : j < k) :
    (a * 2 ^ k + b).testBit j = b.testBit j := by
  have h1 : 0 < 2 ^ j := Nat.pos_pow_of_pos _ (by norm_num)
  have hsplit : a * 2 ^ k + b = 2 ^ j * (2 * (a * 2 ^ (k - j - 1))) + b := by
    have h2 : 2 ^ j * (2 * 2 ^ (k - j - 1)) = 2 ^ k := by
      rw [show 2 * 2 ^ (k - j - 1) = 2 ^ (k - j - 1 + 1) by rw [pow_succ]; ring]
      rw [← pow_add]
      congr 1
      omega
    calc a * 2 ^ k + b = a * (2 ^ j * (2 * 2 ^ (k - j - 1))) + b := by rw [h2]
      _ = 2 ^ j * (2 * (a * 2 ^ (k - j - 1))) + b := by ring
  rw [Nat.testBit_to_div_mod, Nat.testBit_to_div_mod, hsplit, Nat.mul_add_div h1]
  have h3 : (2 * (a * 2 ^ (k - j - 1)) + b / 2 ^ j) % 2 = b / 2 ^ j % 2 := by
    omega
  rw [h3]

lemma testBit_mul_pow_add_high (a b k : Nat) (hb : b < 2 ^ k) :
    (a * 2 ^ k + b).testBit k = a.testBit 0 := by
  have h1 : 0 < 2 ^ k := Nat.pos_pow_of_pos _ (by norm_num)
  rw [Nat.testBit_to_div_mod, Nat.testBit_zero]
  rw [show a * 2 ^ k + b = 2 ^ k * a + b by ring, Nat.mul_add_div h1,
    Nat.div_eq_of_lt hb]
  norm_num

lemma testBit_add_two_pow_self (m h : Nat) (hm : m.testBit h = false) :
    (m + 2 ^ h).testBit h = true := by
  have h1 : 0 < 2 ^ h := Nat.pos_pow_of_pos _ (by norm_num)
  rw [Nat.testBit_to_div_mod] at hm ⊢
  rw [Nat.add_div_right _ h1]
  simp only [decide_eq_false_iff_not] at hm
  simp only [decide_eq_true_eq]
  omega

lemma testBit_sub_two_pow_self (m h : Nat) (hm : m.testBit h = true) :
    2 ^ h ≤ m ∧ (m - 2 ^ h).testBit h = false := by
  have h1 : 0 < 2 ^ h := Nat.pos_pow_of_pos _ (by norm_num)
  rw [Nat.testBit_to_div_mod] at hm
  simp only [decide_eq_true_eq] at hm
  have hle : 2 ^ h ≤ m := by
    by_contra hc
    push_neg at hc
    rw [Nat.div_eq_of_lt hc] at hm
    omega
  refine ⟨hle, ?_⟩
  rw [Nat.testBit_to_div_mod]
  have hdiv : (m - 2 ^ h) / 2 ^ h = m / 2 ^ h - 1 := by
    have := Nat.sub_mul_div m (2 ^ h) 1 (by omega)
    simpa using this
  rw [hdiv]
  simp only [decide_eq_false_iff_not]
  omega

/-- When a bit below the rung level is clear in the result map, the index
together with the corresponding full subtree stays below the top rung. -/
lemma phmK_bnd (k : Nat) :
    ∀ idx peakMap b, b + 1 ≤ k →
      ((phmK k idx peakMap).1).testBit b = false →
      idx + 2 ^ (b + 1) ≤ 2 ^ (k + 1) - 1 := by
  induction k with
  | zero =>
    intro idx peakMap b hb _
    omega
  | succ k ih =>
    intro idx peakMap b hb hbit
    have hpk : 2 ^ (k + 2) = 2 * 2 ^ (k + 1) := by ring
    have hpk1 : 2 ^ (k + 1) = 2 * 2 ^ k := by ring
    have hp1 : 1 ≤ 2 ^ k := Nat.one_le_two_pow
    by_cases hR : 2 ^ (k + 1) - 1 ≤ idx
    · simp only [phmK, if_pos hR] at hbit
      by_cases hbk : b + 1 ≤ k
      · have := ih (idx - (2 ^ (k + 1) - 1)) (2 * peakMap + 1) b hbk hbit
        omega
      · exfalso
        have hbk' : b = k := by omega
        subst hbk'
        rw [phmK_acc, Nat.add_comm] at hbit
        rw [testBit_mul_pow_add_high _ _ _ (phmK_map_lt _ _)] at hbit
        rw [Nat.testBit_zero] at hbit
        simp only [decide_eq_false_iff_not] at hbit
        omega
    · simp only [phmK, if_neg hR] at hbit
      by_cases hbk : b + 1 ≤ k
      · have := ih idx (2 * peakMap) b hbk hbit
        omega
      · have hbk' : b = k := by omega
        subst hbk'
        omega

/-- The run consumes at most one rung of every level: the initial index is
bounded by the full forest of the processed rungs plus the final height. -/
lemma phmK_idx_le (k : Nat) :
    ∀ idx peakMap, idx + k ≤ 2 ^ (k + 1) - 2 + (phmK k idx peakMap).2 := by
  induction k with
  | zero =>
    intro idx peakMap
    simp [phmK]
  | succ k ih =>
    intro idx peakMap
    have hpk : 2 ^ (k + 2) = 2 * 2 ^ (k + 1) := by ring
    have hp1 : 1 ≤ 2 ^ (k + 1) := Nat.one_le_two_pow
    by_cases hR : 2 ^ (k + 1) - 1 ≤ idx
    · simp only [phmK, if_pos hR]
      have := ih (idx - (2 ^ (k + 1) - 1)) (2 * peakMap + 1)
      omega
    · simp only [phmK, if_neg hR]
      have := ih idx (2 * peakMap)
      omega

/-- Height bound of the greedy run, with slack `s` to absorb the boundary
drift of the matched rungs. -/
lemma phmK_height_le (k : Nat) :
    ∀ s idx peakMap, idx ≤ 2 ^ (k + 1) - 2 + s →
      (phmK k idx peakMap).2 ≤ k + s := by
  induction k with
  | zero =>
    intro s idx peakMap hidx
    simpa [phmK] using hidx
  | succ k ih =>
    intro s idx peakMap hidx
    have hpk : 2 ^ (k + 2) = 2 * 2 ^ (k + 1) := by ring
    have hp1 : 1 ≤ 2 ^ (k + 1) := Nat.one_le_two_pow
    by_cases hR : 2 ^ (k + 1) - 1 ≤ idx
    · simp only [phmK, if_pos hR]
      have := ih (s + 1) (idx - (2 ^ (k + 1) - 1)) (2 * peakMap + 1) (by omega)
      omega
    · simp only [phmK, if_neg hR]
      have := ih 0 idx (2 * peakMap) (by omega)
      omega

/-- A rung level above the index's bit length never matches, so padding
the run with one extra top rung does not change the result. -/
lemma phmK_pad (k idx : Nat) (h : idx < 2 ^ (k + 1) - 1) :
    phmK (k + 1) idx 0 = phmK k idx 0 := by
  simp only [phmK, if_neg (by omega : ¬(2 ^ (k + 1) - 1 ≤ idx))]

lemma phmK_pad_ge (k : Nat) :
    ∀ j idx, j ≤ k → idx < 2 ^ j → phmK k idx 0 = phmK j idx 0 := by
  induction k with
  | zero =>
    intro j idx hj _
    rw [show j = 0 by omega]
  | succ k ih =>
    intro j idx hj hidx
    by_cases hjk : j = k + 1
    · rw [hjk]
    · have hj' : j ≤ k := by omega
      have hmono : 2 ^ j ≤ 2 ^ k := Nat.pow_le_pow_right (by norm_num) hj'
      have hp1 : 1 ≤ 2 ^ k := Nat.one_le_two_pow
      have hpk1 : 2 ^ (k + 1) = 2 * 2 ^ k := by ring
      rw [phmK_pad k idx (by omega)]
      exact ih j idx hj' hidx

/-- Adding the full sibling subtree `2 ^ (h + 1) - 1` to the index of a
left node (clear bit `h`) reruns the greedy ladder identically except that
rung `h + 1` now matches: the map gains bit `h`, the height is unchanged. -/
lemma phmK_key_left (k : Nat) :
    ∀ idx peakMap m h, phmK k idx peakMap = (m, h) → h + 1 ≤ k →
      m.testBit h = false →
      phmK k (idx + (2 ^ (h + 1) - 1)) peakMap = (m + 2 ^ h, h) := by
  induction k with
  | zero =>
    intro idx peakMap m h _ hk _
    omega
  | succ k ih =>
    intro idx peakMap m h heq hk hbit
    have hpk1 : 2 ^ (k + 1) = 2 * 2 ^ k := by ring
    have hph1 : 1 ≤ 2 ^ (h + 1) := Nat.one_le_two_pow
    by_cases hR : 2 ^ (k + 1) - 1 ≤ idx
    · simp only [phmK, if_pos hR] at heq
      by_cases hhk : h + 1 ≤ k
      · have hrec := ih (idx - (2 ^ (k + 1) - 1)) (2 * peakMap + 1) m h heq hhk hbit
        have hR2 : 2 ^ (k + 1) - 1 ≤ idx + (2 ^ (h + 1) - 1) := by omega
        simp only [phmK, if_pos hR2]
        rw [show idx + (2 ^ (h + 1) - 1) - (2 ^ (k + 1) - 1) =
          idx - (2 ^ (k + 1) - 1) + (2 ^ (h + 1) - 1) by omega]
        exact hrec
      · exfalso
        have hhk' : h = k := by omega
        subst hhk'
        rw [phmK_acc] at heq
        rw [Prod.mk.injEq] at heq
        rw [← heq.1, Nat.add_comm] at hbit
        rw [testBit_mul_pow_add_high _ _ _ (phmK_map_lt _ _)] at hbit
        rw [Nat.testBit_zero] at hbit
        simp only [decide_eq_false_iff_not] at hbit
        omega
    · simp only [phmK, if_neg hR] at heq
      by_cases hhk : h + 1 ≤ k
      · have hbnd := phmK_bnd k idx (2 * peakMap) h hhk (by rw [heq]; exact hbit)
        have hR2 : ¬(2 ^ (k + 1) - 1 ≤ idx + (2 ^ (h + 1) - 1)) := by omega
        simp only [phmK, if_neg hR2]
        exact ih idx (2 * peakMap) m h heq hhk hbit
      · have hhk' : h = k := by omega
        subst hhk'
        have hR2 : 2 ^ (h + 1) - 1 ≤ idx + (2 ^ (h + 1) - 1) := by omega
        simp only [phmK, if_pos hR2]
        rw [show idx + (2 ^ (h + 1) - 1) - (2 ^ (h + 1) - 1) = idx by omega]
        rw [phmK_acc h idx (2 * peakMap + 1)]
        rw [phmK_acc h idx (2 * peakMap)] at heq
        rw [Prod.mk.injEq] at heq ⊢
        have h2 : (2 * peakMap + 1) * 2 ^ h = 2 * peakMap * 2 ^ h + 2 ^ h := by ring
        exact ⟨by omega, heq.2⟩

/-- Removing the full sibling subtree `2 ^ (h + 1) - 1` from the index of
a right node (set bit `h`) reruns the greedy ladder identically except
that rung `h + 1` no longer matches: the map loses bit `h`, the height is
unchanged.  The subtree fits under the index. -/
lemma phmK_key_right (k : Nat) :
    ∀ idx peakMap m h, phmK k idx peakMap = (m, h) → h + 1 ≤ k →
      m.testBit h = true →
      2 ^ (h + 1) - 1 ≤ idx ∧
        phmK k (idx - (2 ^ (h + 1) - 1)) peakMap = (m - 2 ^ h, h) := by
  induction k with
  | zero =>
    intro idx peakMap m h _ hk _
    omega
  | succ k ih =>
    intro idx peakMap m h heq hk hbit
    have hpk1 : 2 ^ (k + 1) = 2 * 2 ^ k := by ring
    have hph1 : 1 ≤ 2 ^ (h + 1) := Nat.one_le_two_pow
    by_cases hR : 2 ^ (k + 1) - 1 ≤ idx
    · simp only [phmK, if_pos hR] at heq
      by_cases hhk : h + 1 ≤ k
      · obtain ⟨hge, hrec⟩ := ih (idx - (2 ^ (k + 1) - 1)) (2 * peakMap + 1) m h heq hhk hbit
        refine ⟨by omega, ?_⟩
        have hR2 : 2 ^ (k + 1) - 1 ≤ idx - (2 ^ (h + 1) - 1) := by omega
        simp only [phmK, if_pos hR2]
        rw [show idx - (2 ^ (h + 1) - 1) - (2 ^ (k + 1) - 1) =
          idx - (2 ^ (k + 1) - 1) - (2 ^ (h + 1) - 1) by omega]
        exact hrec
      · have hhk' : h = k := by omega
        subst hhk'
        refine ⟨by omega, ?_⟩
        have hsb := phmK_idx_le h (idx - (2 ^ (h + 1) - 1)) (2 * peakMap + 1)
        have hh2 : (phmK h (idx - (2 ^ (h + 1) - 1)) (2 * peakMap + 1)).2 = h := by
          rw [heq]
        rw [hh2] at hsb
        have hR2 : ¬(2 ^ (h + 1) - 1 ≤ idx - (2 ^ (h + 1) - 1)) := by omega
        simp only [phmK, if_neg hR2]
        rw [phmK_acc h (idx - (2 ^ (h + 1) - 1)) (2 * peakMap)]
        rw [phmK_acc h (idx - (2 ^ (h + 1) - 1)) (2 * peakMap + 1)] at heq
        rw [Prod.mk.injEq] at heq ⊢
        have h2 : (2 * peakMap + 1) * 2 ^ h = 2 * peakMap * 2 ^ h + 2 ^ h := by ring
        have hinner := phmK_map_lt h (idx - (2 ^ (h + 1) - 1))
        exact ⟨by omega, heq.2⟩
    · simp only [phmK, if_neg hR] at heq
      by_cases hhk : h + 1 ≤ k
      · obtain ⟨hge, hrec⟩ := ih idx (2 * peakMap) m h heq hhk hbit
        refine ⟨hge, ?_⟩
        have hR2 : ¬(2 ^ (k + 1) - 1 ≤ idx - (2 ^ (h + 1) - 1)) := by omega
        simp only [phmK, if_neg hR2]
        exact hrec
      · exfalso
        have hhk' : h = k := by omega
        subst hhk'
        rw [phmK_acc] at heq
        rw [Prod.mk.injEq] at heq
        rw [← heq.1, Nat.add_comm] at hbit
        rw [testBit_mul_pow_add_high _ _ _ (phmK_map_lt _ _)] at hbit
        rw [Nat.testBit_zero] at hbit
        simp only [decide_eq_true_eq] at hbit
        omega

/-- The height returned by `peak_height_map` is strictly below the bit
length of the index. -/
lemma phm_height_lt (idx : Nat) (h1 : idx ≠ 0) (h64 : idx < 2 ^ 64) :
    (peak_height_map idx).2 + 1 ≤ bitLenAux 64 idx := by
  rw [phm_eq_phmK]
  obtain ⟨K, hK⟩ : ∃ K, bitLenAux 64 idx = K + 1 :=
    ⟨bitLenAux 64 idx - 1, by
      have := bitLenAux_pos 64 idx h1 (by norm_num)
      omega⟩
  rw [hK]
  have hlt : idx < 2 ^ (K + 1) := by
    rw [← hK]
    exact bitLenAux_lt 64 idx h64
  by_cases hR : 2 ^ (K + 1) - 1 ≤ idx
  · have hidx0 : idx - (2 ^ (K + 1) - 1) = 0 := by omega
    simp only [phmK, if_pos hR, hidx0, phmK_zero_idx]
    omega
  · simp only [phmK, if_neg hR]
    have := phmK_height_le K 0 idx (2 * 0) (by omega)
    omega

/-- `family` expressed through the components of `peak_height_map`. -/
lemma family_eq_of_phm (pos m h : Nat)
    (hphm : peak_height_map (pos - 1) = (m, h)) :
    family pos =
      if m.testBit h = true then (pos + 1, pos + 1 - 2 ^ (h + 1))
      else (pos + 2 ^ (h + 1), pos + 2 ^ (h + 1) - 1) := by
  unfold family
  rw [hphm]
  dsimp only
  have hshift : (1 : Nat) <<< h = 2 ^ h := by
    rw [Nat.shiftLeft_eq]
    ring
  have hpow : 2 * 2 ^ h = 2 ^ (h + 1) := by ring
  rw [hshift, Nat.and_two_pow, hpow]
  by_cases hbit : m.testBit h = true
  · rw [if_pos hbit]
    rw [if_pos (by
      rw [hbit]
      simp)]
  · have hbitf : m.testBit h = false := by simpa using hbit
    rw [if_neg hbit]
    rw [if_neg (by
      rw [hbitf]
      simp)]

/-- Sanity: the ladder value at the index of position `u64::MAX - 1`:
height 62 with bit 62 set, so `u64::MAX - 1` is a right child whose parent
is `u64::MAX` and whose sibling is `2 ^ 63 - 1`. -/
lemma phm_sub_three : peak_height_map (2 ^ 64 - 3) = (2 ^ 63 - 1, 62) := by
  rw [phm_eq_phmK]
  decide

/-- C7 counterexample: the claim quantifies over every position `p ≥ 1`,
but at `p = u64::MAX` the source has no well-defined family at all — a
debug build panics on the overflowing `2 * peak` (the checked model is
`none`) — and under release (wrapping) semantics the symmetry equation is
false at that input: the wrapped `family` makes `u64::MAX` its own parent
with sibling `u64::MAX - 1`, whose family is `(u64::MAX, 2 ^ 63 - 1)` and
so does not name `u64::MAX` as its sibling. -/
theorem c7_counterexample :
    family_checked (2 ^ 64 - 1) = none ∧
      family_wrapping (2 ^ 64 - 1) = (2 ^ 64 - 1, 2 ^ 64 - 2) ∧
      family_wrapping (2 ^ 64 - 2) = (2 ^ 64 - 1, 2 ^ 63 - 1) ∧
      ¬(family_wrapping (family_wrapping (2 ^ 64 - 1)).2 =
          ((family_wrapping (2 ^ 64 - 1)).1, 2 ^ 64 - 1)) := by
  have hchk : family_checked (2 ^ 64 - 1) = none := by
    unfold family_checked
    rw [show checkedSub (2 ^ 64 - 1) 1 = some (2 ^ 64 - 2) by decide]
    rw [Option.some_bind]
    rw [phm_test_values.2.2.2.2.2.2.2.2.2.2]
    decide
  have hw1 : family_wrapping (2 ^ 64 - 1) = (2 ^ 64 - 1, 2 ^ 64 - 2) := by
    unfold family_wrapping
    rw [show ((2 ^ 64 - 1 : Nat) + 2 ^ 64 - 1) % 2 ^ 64 = 2 ^ 64 - 2 by norm_num]
    rw [phm_test_values.2.2.2.2.2.2.2.2.2.2]
    decide
  have hw2 : family_wrapping (2 ^ 64 - 2) = (2 ^ 64 - 1, 2 ^ 63 - 1) := by
    unfold family_wrapping
    rw [show ((2 ^ 64 - 2 : Nat) + 2 ^ 64 - 1) % 2 ^ 64 = 2 ^ 64 - 3 by norm_num]
    rw [phm_sub_three]
    decide
  refine ⟨hchk, hw1, hw2, ?_⟩
  rw [hw1]
  show ¬(family_wrapping (2 ^ 64 - 2) = (2 ^ 64 - 1, 2 ^ 64 - 1))
  intro hcon
  rw [hw2] at hcon
  have := congrArg Prod.snd hcon
  norm_num at this

/-- C7, amended: `family` is symmetric — the sibling of a node has the
same parent and names the node as its own sibling — for every position
`1 ≤ p ≤ 2 ^ 64 - 2`, that is, every `u64` position except `u64::MAX`,
where the source's unchecked `2 * peak` overflows. -/
theorem c7_family_symmetric_amended (p : Nat) (hp : 1 ≤ p) (hlt : p < 2 ^ 64 - 1) :
    family (family p).2 = ((family p).1, p) := by
  by_cases hp1 : p = 1
  · subst hp1
    have hf1 : family 1 = (3, 2) := by
      unfold family
      rw [phm_eq_phmK]
      decide
    have hf2 : family 2 = (3, 1) := by
      unfold family
      rw [phm_eq_phmK]
      decide
    rw [hf1, hf2]
  · have hidx1 : 1 ≤ p - 1 := by omega
    have hidx64 : p - 1 < 2 ^ 64 := by omega
    rcases hr : phmK (bitLenAux 64 (p - 1)) (p - 1) 0 with ⟨m, h⟩
    have hphm : peak_height_map (p - 1) = (m, h) := by
      rw [phm_eq_phmK, hr]
    have hh : h + 1 ≤ bitLenAux 64 (p - 1) := by
      have := phm_height_lt (p - 1) (by omega) hidx64
      rw [hphm] at this
      exact this
    have hKge : 2 ^ (bitLenAux 64 (p - 1) - 1) ≤ p - 1 :=
      bitLenAux_ge 64 (p - 1) (by omega)
    have hKlt : p - 1 < 2 ^ bitLenAux 64 (p - 1) := bitLenAux_lt 64 (p - 1) hidx64
    have hK64 : bitLenAux 64 (p - 1) ≤ 64 := bitLenAux_le 64 (p - 1)
    have hfam := family_eq_of_phm p m h hphm
    have hph2 : 2 ≤ 2 ^ (h + 1) :=
      Nat.one_lt_two_pow_iff.mpr (Nat.succ_ne_zero h)
    by_cases hbit : m.testBit h = true
    · -- p is a right child
      obtain ⟨hge, hrec⟩ :=
        phmK_key_right (bitLenAux 64 (p - 1)) (p - 1) 0 m h hr hh hbit
      have hsib : family p = (p + 1, (p - 1 - (2 ^ (h + 1) - 1)) + 1) := by
        rw [hfam, if_pos hbit, Prod.mk.injEq]
        exact ⟨rfl, by omega⟩
      have hidx2ne : peak_height_map (p - 1 - (2 ^ (h + 1) - 1)) = (m - 2 ^ h, h) := by
        rw [phm_eq_phmK]
        have hle : p - 1 - (2 ^ (h + 1) - 1) ≤ p - 1 := by omega
        have hF2 : bitLenAux 64 (p - 1 - (2 ^ (h + 1) - 1)) ≤ bitLenAux 64 (p - 1) := by
          by_cases hz : p - 1 - (2 ^ (h + 1) - 1) = 0
          · rw [hz]
            have : bitLenAux 64 0 = 0 := by decide
            rw [this]
            omega
          · by_contra hc
            push_neg at hc
            have hge2 : 2 ^ (bitLenAux 64 (p - 1 - (2 ^ (h + 1) - 1)) - 1) ≤
                p - 1 - (2 ^ (h + 1) - 1) := bitLenAux_ge 64 _ hz
            have hmono : 2 ^ bitLenAux 64 (p - 1) ≤
                2 ^ (bitLenAux 64 (p - 1 - (2 ^ (h + 1) - 1)) - 1) :=
              Nat.pow_le_pow_right (by norm_num) (by omega)
            omega
        rw [phmK_pad_ge (bitLenAux 64 (p - 1)) (bitLenAux 64 (p - 1 - (2 ^ (h + 1) - 1)))
          (p - 1 - (2 ^ (h + 1) - 1)) hF2
          (bitLenAux_lt 64 _ (by omega))] at hrec
        exact hrec
      have hbit2 : (m - 2 ^ h).testBit h = false :=
        (testBit_sub_two_pow_self m h hbit).2
      have hfam2 := family_eq_of_phm ((p - 1 - (2 ^ (h + 1) - 1)) + 1) (m - 2 ^ h) h
        (by simpa using hidx2ne)
      rw [hsib]
      rw [hfam2, if_neg (by rw [hbit2]; simp), Prod.mk.injEq]
      constructor <;> omega
    · -- p is a left child
      have hbitf : m.testBit h = false := by simpa using hbit
      have hrec := phmK_key_left (bitLenAux 64 (p - 1)) (p - 1) 0 m h hr hh hbitf
      have hbnd := phmK_bnd (bitLenAux 64 (p - 1)) (p - 1) 0 h hh (by rw [hr]; exact hbitf)
      have hpk2 : 2 ^ (bitLenAux 64 (p - 1) + 1) = 2 * 2 ^ bitLenAux 64 (p - 1) := by ring
      have hsib : family p = (p + 2 ^ (h + 1), (p - 1 + (2 ^ (h + 1) - 1)) + 1) := by
        rw [hfam, if_neg hbit, Prod.mk.injEq]
        exact ⟨rfl, by omega⟩
      have hidx2ne : peak_height_map (p - 1 + (2 ^ (h + 1) - 1)) = (m + 2 ^ h, h) := by
        rw [phm_eq_phmK]
        by_cases h64b : p - 1 + (2 ^ (h + 1) - 1) < 2 ^ 64
        · have hF2lt : p - 1 + (2 ^ (h + 1) - 1) <
              2 ^ bitLenAux 64 (p - 1 + (2 ^ (h + 1) - 1)) := bitLenAux_lt 64 _ h64b
          have hF2ge : 2 ^ (bitLenAux 64 (p - 1 + (2 ^ (h + 1) - 1)) - 1) ≤
              p - 1 + (2 ^ (h + 1) - 1) := bitLenAux_ge 64 _ (by omega)
          have hKle : bitLenAux 64 (p - 1) ≤ bitLenAux 64 (p - 1 + (2 ^ (h + 1) - 1)) := by
            by_contra hc
            push_neg at hc
            have hmono : 2 ^ bitLenAux 64 (p - 1 + (2 ^ (h + 1) - 1)) ≤
                2 ^ (bitLenAux 64 (p - 1) - 1) :=
              Nat.pow_le_pow_right (by norm_num) (by omega)
            omega
          have hF2le : bitLenAux 64 (p - 1 + (2 ^ (h + 1) - 1)) ≤
              bitLenAux 64 (p - 1) + 1 := by
            by_contra hc
            push_neg at hc
            have hmono : 2 ^ (bitLenAux 64 (p - 1) + 1) ≤
                2 ^ (bitLenAux 64 (p - 1 + (2 ^ (h + 1) - 1)) - 1) :=
              Nat.pow_le_pow_right (by norm_num) (by omega)
            omega
          rcases (by omega :
              bitLenAux 64 (p - 1 + (2 ^ (h + 1) - 1)) = bitLenAux 64 (p - 1) ∨
                bitLenAux 64 (p - 1 + (2 ^ (h + 1) - 1)) = bitLenAux 64 (p - 1) + 1)
            with hF | hF
          · rw [hF]
            exact hrec
          · rw [hF, phmK_pad (bitLenAux 64 (p - 1)) _ (by omega)]
            exact hrec
        · push_neg at h64b
          have hK64' : bitLenAux 64 (p - 1) = 64 := by
            by_contra hc
            have hKlt64 : bitLenAux 64 (p - 1) + 1 ≤ 64 := by omega
            have hmono : 2 ^ (bitLenAux 64 (p - 1) + 1) ≤ 2 ^ 64 :=
              Nat.pow_le_pow_right (by norm_num) hKlt64
            omega
          have hF64 : bitLenAux 64 (p - 1 + (2 ^ (h + 1) - 1)) = 64 := by
            have h63 : 2 ^ 63 ≤ p - 1 + (2 ^ (h + 1) - 1) :=
              le_trans (by norm_num) h64b
            exact bitLenAux_of_ge 63 _ h63
          rw [hF64]
          rw [hK64'] at hrec
          exact hrec
      have hbit2 : (m + 2 ^ h).testBit h = true :=
        testBit_add_two_pow_self m h hbitf
      have hfam2 := family_eq_of_phm ((p - 1 + (2 ^ (h + 1) - 1)) + 1) (m + 2 ^ h) h
        (by simpa using hidx2ne)
      rw [hsib]
      rw [hfam2, if_pos hbit2, Prod.mk.injEq]
      constructor <;> omega

/-- Witness for the amended C7 theorem at `p = 2`: `family 2 = (3, 1)`
and `family 1 = (3, 2)`. -/
theorem c7_family_symmetric_amended_witness :
    (1 ≤ 2 ∧ 2 < 2 ^ 64 - 1) ∧ family (family 2).2 = ((family 2).1, 2) :=
  ⟨⟨by norm_num, by norm_num⟩,
    c7_family_symmetric_amended 2 (by norm_num) (by norm_num)⟩
